import Mathlib

/-!
Shallow embedding of the patch-based optical-flow tracker of
`src/include/basalt/optical_flow/patch_optical_flow.h` (class
`basalt::PatchOpticalFlow`).  Machine floating-point scalars are modelled
by `ℚ`; the parts of the repository that live outside `src/`
(`OpticalFlowPatch` of patch.h, the camera models, `Image::InBounds`,
the FAST detector) are either abstracted as function parameters of the
embedded operations or, where a claim needs their behaviour, modelled
from the spec (marked in the doc comments).
-/

namespace Basalt

/-- A 2D pixel vector (`Eigen::Matrix<Scalar, 2, 1>`). -/
abbrev Vec2 : Type := ℚ × ℚ

/-- A 3D increment vector (`Eigen::Matrix<Scalar, 3, 1>`): 2 translation
components and 1 rotation component. -/
abbrev Vec3 : Type := ℚ × ℚ × ℚ

/-- A 2×2 matrix (`Eigen::Matrix<Scalar, 2, 2>`), the linear part of an
affine warp. -/
structure Mat2 where
  a : ℚ
  b : ℚ
  c : ℚ
  d : ℚ
deriving DecidableEq, Repr

/-- Matrix-matrix product of 2×2 matrices. -/
def Mat2.mul (m n : Mat2) : Mat2 :=
  ⟨m.a * n.a + m.b * n.c, m.a * n.b + m.b * n.d,
   m.c * n.a + m.d * n.c, m.c * n.b + m.d * n.d⟩

/-- Matrix-vector product of a 2×2 matrix with a pixel vector. -/
def Mat2.mulVec (m : Mat2) (v : Vec2) : Vec2 :=
  (m.a * v.1 + m.b * v.2, m.c * v.1 + m.d * v.2)

/-- The identity 2×2 matrix. -/
def Mat2.id : Mat2 := ⟨1, 0, 0, 1⟩

/-- Componentwise sum of pixel vectors. -/
def vadd (u v : Vec2) : Vec2 := (u.1 + v.1, u.2 + v.2)

/-- Componentwise difference of pixel vectors. -/
def vsub (u v : Vec2) : Vec2 := (u.1 - v.1, u.2 - v.2)

/-- Componentwise division of a pixel vector by a scalar
(`transform.translation() /= scale`). -/
def vdiv (v : Vec2) (s : ℚ) : Vec2 := (v.1 / s, v.2 / s)

/-- Componentwise multiplication of a pixel vector by a scalar
(`transform.translation() *= scale`). -/
def vmul (v : Vec2) (s : ℚ) : Vec2 := (v.1 * s, v.2 * s)

/-- Squared Euclidean norm of a pixel vector (`.squaredNorm()`). -/
def sqNorm (v : Vec2) : ℚ := v.1 * v.1 + v.2 * v.2

/-- An affine 2D warp (`Eigen::AffineCompact2f`): a 2×2 linear part and a
translation. -/
structure Affine2 where
  lin : Mat2
  t : Vec2
deriving DecidableEq, Repr

/-- Composition of affine warps, `self * rhs` as Eigen computes
`transform *= M` for a 3×3 homogeneous matrix `M`:
`(A, a) ∘ (B, b) = (A·B, A·b + a)`. -/
def Affine2.comp (f g : Affine2) : Affine2 :=
  ⟨f.lin.mul g.lin, vadd (f.lin.mulVec g.t) f.t⟩

/-- Sum of scaled `Vec3`s, used for the matrix-vector product
`H_se2_inv_J_se2_T * res` represented by its columns. -/
def v3add (u v : Vec3) : Vec3 := (u.1 + v.1, u.2.1 + v.2.1, u.2.2 + v.2.2)

/-- Scalar multiple of a `Vec3`. -/
def v3smul (s : ℚ) (v : Vec3) : Vec3 := (s * v.1, s * v.2.1, s * v.2.2)

/-- Negation of a `Vec3`. -/
def v3neg (v : Vec3) : Vec3 := (-v.1, -v.2.1, -v.2.2)

/-- Infinity norm of a `Vec3` (`inc.lpNorm<Eigen::Infinity>()`). -/
def linf3 (v : Vec3) : ℚ := max |v.1| (max |v.2.1| |v.2.2|)

/-- Product of the 3×P matrix `H_se2_inv_J_se2_T`, given by its list of
columns (one per pattern point), with a residual vector. -/
def matVecCols (cols : List Vec3) (res : List ℚ) : Vec3 :=
  (List.zipWith v3smul res cols).foldl v3add (0, 0, 0)

/-- The Gauss-Newton increment `inc = -dp.H_se2_inv_J_se2_T * res` of
`trackPointAtLevel`. -/
def incOf (cols : List Vec3) (res : List ℚ) : Vec3 :=
  v3neg (matVecCols cols res)

/-- The transformed pattern of one Gauss-Newton iteration:
`transform.linear().matrix() * PatchT::pattern2` with the translation
added to every column. -/
def transformedPattern (w : Affine2) (pattern : List Vec2) : List Vec2 :=
  pattern.map (fun p => vadd (w.lin.mulVec p) w.t)

/-- Modelled from the spec: `Image::InBounds(p, border)` of the image
class (image.h is not under src/) — the spec rejects a translation
"within 2 pixels of any image border", i.e. the point is in bounds iff
`border ≤ x < w - border` and `border ≤ y < h - border`. -/
def inBoundsB (w h border : ℚ) (p : Vec2) : Bool :=
  decide (border ≤ p.1 ∧ p.1 < w - border ∧ border ≤ p.2 ∧ p.2 < h - border)

/-- Context of one pyramid level for `trackPointAtLevel`: the reference
patch `dp` (whose residual computation and precomputed
`H_se2_inv_J_se2_T` come from patch.h, which is not under src/, so the
residual is an abstract sampling function returning `none` on sampling
failure and the matrix is abstract column data), the SE(2) exponential
of Sophus (abstract), the IEEE finiteness test on increments (abstract:
`ℚ` has no NaN or infinity, the flag stands for
`inc.array().isFinite().all()`), the image dimensions, the compile-time
pattern, and the iteration cap `config.optical_flow_max_iterations`. -/
structure LevelCtx where
  residual : List Vec2 → Option (List ℚ)
  cols : List Vec3
  isFin : Vec3 → Bool
  se2exp : Vec3 → Affine2
  pattern : List Vec2
  w : ℚ
  h : ℚ
  maxIters : ℕ

/-- One Gauss-Newton iteration of `PatchOpticalFlow::trackPointAtLevel`
(patch_optical_flow.h lines 297-321): sample the pattern at
`warp.linear * pattern + warp.translation` (failure fails the step and
leaves the warp unchanged), compute `inc = -H_se2_inv_J_se2_T * res`,
fail (warp unchanged) if `inc` is not finite or its infinity norm is not
`< 10^6`, otherwise compose `transform *= SE2::exp(inc).matrix()` and
succeed iff the new translation is in bounds with margin 2. -/
def gnStep (c : LevelCtx) (w : Affine2) : Affine2 × Bool :=
  match c.residual (transformedPattern w c.pattern) with
  | none => (w, false)
  | some res =>
    let inc := incOf c.cols res
    if c.isFin inc ∧ linf3 inc < 1000000 then
      let w2 := w.comp (c.se2exp inc)
      (w2, inBoundsB c.w c.h 2 w2.t)
    else
      (w, false)

/-- The iteration loop of `trackPointAtLevel`
(`for (int iteration = 0; patch_valid && iteration < max; iteration++)`):
runs at most `n` Gauss-Newton steps, stopping at the first failed step. -/
def trackAtLevelLoop (c : LevelCtx) : ℕ → Affine2 → Affine2 × Bool
  | 0, w => (w, true)
  | n + 1, w =>
    let s := gnStep c w
    if s.2 then trackAtLevelLoop c n s.1 else (s.1, false)

/-- `PatchOpticalFlow::trackPointAtLevel` (patch_optical_flow.h lines
289-325): the Gauss-Newton loop run for at most
`config.optical_flow_max_iterations` iterations. -/
def trackPointAtLevel (c : LevelCtx) (w : Affine2) : Affine2 × Bool :=
  trackAtLevelLoop c c.maxIters w

/-- The warp obtained after `k` successful Gauss-Newton steps. -/
def gnIter (c : LevelCtx) (k : ℕ) (w : Affine2) : Affine2 :=
  (fun x => (gnStep c x).1)^[k] w

/-- The coarse-to-fine level loop of `PatchOpticalFlow::trackPoint`
(patch_optical_flow.h lines 264-287), abstracted over the per-level
patch-validity flags `pv level = patch_vec[level].valid` and the
per-level tracker `step level = trackPointAtLevel(pyr.lvl(level), patch_vec[level], ·)`.
`trackPointLoop pv step l w` processes levels `l, l-1, …, 0`: at each
level the translation is divided by `2^level`, the loop aborts with
failure if the patch at that level is invalid, otherwise the per-level
tracker runs; in every case the translation is multiplied back by
`2^level` before the next level or before returning. -/
def trackPointLoop (pv : ℕ → Bool) (step : ℕ → Affine2 → Affine2 × Bool) :
    ℕ → Affine2 → Affine2 × Bool
  | l, w =>
    let s : ℚ := 2 ^ l
    let w1 : Affine2 := ⟨w.lin, vdiv w.t s⟩
    if pv l then
      let r := step l w1
      let w2 : Affine2 := ⟨r.1.lin, vmul r.1.t s⟩
      if r.2 then
        match l with
        | 0 => (w2, true)
        | l' + 1 => trackPointLoop pv step l' w2
      else (w2, false)
    else (⟨w1.lin, vmul w1.t s⟩, false)

/-- `PatchOpticalFlow::trackPoint`: the level loop started at
`config.optical_flow_levels`. -/
def trackPoint (levels : ℕ) (pv : ℕ → Bool)
    (step : ℕ → Affine2 → Affine2 × Bool) (w : Affine2) : Affine2 × Bool :=
  trackPointLoop pv step levels w

/-- A presentation of the level loop in which no rescaling of the
translation ever escapes a level: the per-level tracker is conjugated
with the scaling (`divide, track, multiply` as one unit) and the
invalid-patch abort returns the warp untouched.  Claim C10 is the
statement that `trackPointLoop` coincides with this presentation. -/
def trackPointLoopL0 (pv : ℕ → Bool) (step : ℕ → Affine2 → Affine2 × Bool) :
    ℕ → Affine2 → Affine2 × Bool
  | l, w =>
    let s : ℚ := 2 ^ l
    if pv l then
      let r := step l ⟨w.lin, vdiv w.t s⟩
      let w2 : Affine2 := ⟨r.1.lin, vmul r.1.t s⟩
      if r.2 then
        match l with
        | 0 => (w2, true)
        | l' + 1 => trackPointLoopL0 pv step l' w2
      else (w2, false)
    else (w, false)

/-- The effect on the warp of one fully executed level pass of
`trackPoint`, in level-0 coordinates: divide the translation by
`2^level`, run the per-level tracker, multiply the resulting translation
back by `2^level` (the linear part is whatever the tracker produced). -/
def passWarp (step : ℕ → Affine2 → Affine2 × Bool) (l : ℕ) (w : Affine2) : Affine2 :=
  ⟨(step l ⟨w.lin, vdiv w.t ((2 : ℚ) ^ l)⟩).1.lin,
   vmul (step l ⟨w.lin, vdiv w.t ((2 : ℚ) ^ l)⟩).1.t ((2 : ℚ) ^ l)⟩

/-- The warp entering the `k`-th visited level of `trackPoint` when
every earlier pass ran: `k` level passes applied from the start level
`levels` downward, so the next level to process is `levels - k`. -/
def descend (step : ℕ → Affine2 → Affine2 × Bool) (levels : ℕ) :
    ℕ → Affine2 → Affine2
  | 0, w => w
  | k + 1, w => passWarp step (levels - k) (descend step levels k w)

/-- The matching-guess policy enumeration
(`config.optical_flow_matching_guess_type`). -/
inductive MatchingGuessType where
  | SAME_PIXEL
  | REPROJ_FIX_DEPTH
  | REPROJ_AVG_DEPTH
deriving DecidableEq, Repr

/-- A keypoint record (`basalt::Keypoint`): the per-camera affine pose,
the binary descriptor (modelled as an opaque token) and the
`detected_by_opt_flow` flag. -/
structure Kp where
  pose : Affine2
  descr : ℕ
  byFlow : Bool
deriving DecidableEq, Repr

/-- A per-camera keypoint map (`basalt::Keypoints`), modelled as an
association list from keypoint id to record. -/
abbrev KpMap : Type := List (ℕ × Kp)

/-- Context of one `trackPoints` call: the source and destination camera
indices, the matching guess type, the current depth guess, the
destination pyramid's level-0 dimensions (`pyr_2.lvl(0).w/h`), the
abstract `calib.viewOffset(t1, depth, cam1, cam2)` of the calibration
(not under src/), the forward and backward `trackPoint` calls with the
pyramid and the keypoint's patch stack `patches.at(id)` baked in (the
keypoint id is the remaining argument), and the forward-backward
tolerance `config.optical_flow_max_recovered_dist2`. -/
structure TrackCtx where
  cam1 : ℕ
  cam2 : ℕ
  guessType : MatchingGuessType
  depth : ℚ
  w2 : ℚ
  h2 : ℚ
  viewOffset : Vec2 → ℚ → Vec2
  trkDst : ℕ → Affine2 → Affine2 × Bool
  trkSrc : ℕ → Affine2 → Affine2 × Bool
  maxDist2 : ℚ

/-- The offset `off` of one keypoint in `trackPoints`
(patch_optical_flow.h lines 206-226): `viewOffset(t1, depth, cam1, cam2)`
when the cameras differ and the guess type requires depth
(`guess_type != SAME_PIXEL`), and `(0, 0)` otherwise. -/
def theOff (ctx : TrackCtx) (t1 : Vec2) : Vec2 :=
  if ctx.cam1 ≠ ctx.cam2 ∧ ctx.guessType ≠ MatchingGuessType.SAME_PIXEL then
    ctx.viewOffset t1 ctx.depth
  else (0, 0)

/-- The per-keypoint body of `PatchOpticalFlow::trackPoints`
(patch_optical_flow.h lines 212-252): subtract the offset from the
translation, bounds-check the prior against the destination level-0
image, track forward on the destination pyramid, re-track backward on
the source pyramid starting from the forward result with the offset
added back, and accept iff the squared distance between the recovered
translation and the input translation is strictly below
`optical_flow_max_recovered_dist2`; the accepted record carries the
forward-tracked pose, the input descriptor, and
`detected_by_opt_flow = true`. -/
def processOne (ctx : TrackCtx) (id : ℕ) (kp : Kp) : Option Kp :=
  let t1 := kp.pose.t
  let off := theOff ctx t1
  let t2 := vsub t1 off
  if 0 ≤ t2.1 ∧ 0 ≤ t2.2 ∧ t2.1 < ctx.w2 ∧ t2.2 < ctx.h2 then
    let fwd := ctx.trkDst id ⟨kp.pose.lin, t2⟩
    if fwd.2 then
      let back := ctx.trkSrc id ⟨fwd.1.lin, vadd fwd.1.t off⟩
      if back.2 then
        if sqNorm (vsub t1 back.1.t) < ctx.maxDist2 then
          some ⟨fwd.1, kp.descr, true⟩
        else none
      else none
    else none
  else none

/-- `PatchOpticalFlow::trackPoints` (patch_optical_flow.h lines
184-262): every keypoint of the source map is processed independently;
the destination map is cleared and receives exactly the accepted
results. -/
def trackPoints (ctx : TrackCtx) (input : KpMap) : KpMap :=
  input.filterMap (fun p => (processOne ctx p.1 p.2).map (fun kp => (p.1, kp)))

/-- A homogeneous 4-vector (`Eigen::Vector4f`), the output of
`unproject`. -/
abbrev Vec4 : Type := ℚ × ℚ × ℚ × ℚ

/-- A 4×4 matrix given by its rows (`Eigen::Matrix4f`), holding the
essential matrix `E`. -/
abbrev Mat4 : Type := Vec4 × Vec4 × Vec4 × Vec4

/-- Dot product of homogeneous 4-vectors. -/
def dot4 (u v : Vec4) : ℚ :=
  u.1 * v.1 + u.2.1 * v.2.1 + u.2.2.1 * v.2.2.1 + u.2.2.2 * v.2.2.2

/-- Matrix-vector product for the essential matrix. -/
def mulVec4 (m : Mat4) (v : Vec4) : Vec4 :=
  (dot4 m.1 v, dot4 m.2.1 v, dot4 m.2.2.1 v, dot4 m.2.2.2 v)

/-- The bilinear epipolar form `p3d0.transpose() * E * p3d1` of
`filterPoints`. -/
def epiForm (E : Mat4) (f0 f1 : Vec4) : ℚ := dot4 f0 (mulVec4 E f1)

/-- The keep-decision of `PatchOpticalFlow::filterPoints` for one
keypoint of camera 1 (patch_optical_flow.h lines 387-414): a keypoint
also present in camera 0 is kept iff both unprojections succeed and the
absolute algebraic epipolar residual does not exceed
`config.optical_flow_epipolar_error`; a keypoint absent from camera 0 is
never considered for removal.  `unp0`/`unp1` are the abstract per-camera
`unproject` (camera models not under src/; the batch unprojection is
element-wise). -/
def keepKp (unp0 unp1 : Vec2 → Option Vec4) (E : Mat4) (thr : ℚ)
    (kps0 : KpMap) (id : ℕ) (kp : Kp) : Bool :=
  match List.lookup id kps0 with
  | none => true
  | some kp0 =>
    match unp0 kp0.pose.t, unp1 kp.pose.t with
    | some f0, some f1 => decide (|epiForm E f0 f1| ≤ thr)
    | _, _ => false

/-- `PatchOpticalFlow::filterPoints` (patch_optical_flow.h lines
379-419): with fewer than two calibrated cameras nothing changes;
otherwise camera 0's map is returned untouched and camera 1's map keeps
exactly the keypoints whose keep-decision holds. -/
def filterPoints (numCams : ℕ) (unp0 unp1 : Vec2 → Option Vec4)
    (E : Mat4) (thr : ℚ) (kps0 kps1 : KpMap) : KpMap × KpMap :=
  if numCams < 2 then (kps0, kps1)
  else (kps0, kps1.filter (fun p => keepKp unp0 unp1 E thr kps0 p.1 p.2))

/-- Modelled from the spec: a reference patch (`OpticalFlowPatch`,
patch.h is not under src/) is represented by its construction data — the
frame timestamp identifying camera 0's pyramid, the pyramid level whose
image it was sampled from, and the sampling position `pos / 2^level`
(spec §3: "sampled once at creation from the source image at K's
position scaled to level L"). -/
structure RefPatch where
  frame : ℤ
  level : ℕ
  pos : Vec2
deriving DecidableEq, Repr

/-- The patch stack created for one detected corner in
`PatchOpticalFlow::addPoints` (patch_optical_flow.h lines 348-356): one
reference patch per pyramid level `l = 0 … optical_flow_levels`, each
sampled from camera 0's pyramid at `pos / 2^l`. -/
def mkStack (t : ℤ) (levels : ℕ) (pos : Vec2) : List RefPatch :=
  (List.range (levels + 1)).map (fun l => ⟨t, l, vdiv pos ((2 : ℚ) ^ l)⟩)

/-- The mutable state of a `PatchOpticalFlow` instance that the claims
observe: `t_ns` (−1 before the first frame), `frame_counter`,
`last_keypoint_id`, the drained depth guess, the append-only patch
store, the per-camera keypoint maps of `transforms`, and the timestamp
of the current pyramids. -/
structure FlowSt where
  t_ns : ℤ
  frameCounter : ℕ
  lastId : ℕ
  depth : ℚ
  patches : List (ℕ × List RefPatch)
  kmaps : List KpMap
  pyrFrame : Option ℤ
deriving Repr

/-- The per-instance collaborators of the pipeline: configuration values
(`optical_flow_levels`, `optical_flow_skip_frames`, the number of
calibrated cameras, whether an output queue is attached), the detector
oracle (keypoints.h is not under src/: given the frame and camera 0's
current keypoint map it returns the new corners), the descriptor oracle,
the per-frame temporal tracking contexts (camera `i` to itself on the
frame's pyramids) and the stereo matching context from camera 0 to
camera 1 (its `depth` field is overwritten with the worker's drained
depth at use), and the epipolar-filter collaborators. -/
structure PipeOps where
  levels : ℕ
  skip : ℕ
  numCams : ℕ
  queueAttached : Bool
  detect : ℤ → KpMap → List Vec2
  descr : ℤ → Vec2 → ℕ
  tempCtx : ℤ → ℕ → TrackCtx
  stereoBase : ℤ → TrackCtx
  unp0 : Vec2 → Option Vec4
  unp1 : Vec2 → Option Vec4
  E : Mat4
  epiErr : ℚ

/-- One detected corner's processing in `addPoints`
(patch_optical_flow.h lines 347-368): create the patch stack under the
fresh id `last_keypoint_id`, add the keypoint (identity linear part,
translation at the corner, descriptor, `detected_by_opt_flow = false`)
to camera 0's map and to `new_kpts0`, and increment `last_keypoint_id`. -/
def detectStep (ops : PipeOps) (t : ℤ) (acc : FlowSt × KpMap) (c : Vec2) :
    FlowSt × KpMap :=
  let st := acc.1
  let kp : Kp := ⟨⟨Mat2.id, c⟩, ops.descr t c, false⟩
  ({ st with
      lastId := st.lastId + 1,
      patches := st.patches ++ [(st.lastId, mkStack t ops.levels c)],
      kmaps := st.kmaps.set 0 (st.kmaps.getD 0 [] ++ [(st.lastId, kp)]) },
   acc.2 ++ [(st.lastId, kp)])

/-- Insertion with `emplace` semantics on the association-list model: a
key already present is left unchanged, a new key is appended. -/
def emplace (m : KpMap) (p : ℕ × Kp) : KpMap :=
  if (List.lookup p.1 m).isSome then m else m ++ [p]

/-- Folding `emplace` over the stereo-match results
(`for (const auto& kv : new_kpts1) transforms->keypoints.at(1).emplace(kv)`). -/
def emplaceAll (m : KpMap) (news : KpMap) : KpMap := news.foldl emplace m

/-- The stereo-seeding block of `PatchOpticalFlow::addPoints`
(patch_optical_flow.h lines 370-376): when more than one camera is
calibrated, the newly detected camera-0 keypoints are matched by
`trackPoints(pyramid->at(0), pyramid->at(1), new_kpts0, new_kpts1, 0, 1)`
and the results are emplaced into camera 1's map; no other camera's map
is touched. -/
def stereoSeed (ctx : TrackCtx) (numCams : ℕ) (newKpts0 : KpMap)
    (maps : List KpMap) : List KpMap :=
  if 1 < numCams then
    maps.set 1 (emplaceAll (maps.getD 1 []) (trackPoints ctx newKpts0))
  else maps

/-- `PatchOpticalFlow::addPoints` (patch_optical_flow.h lines 327-377)
at the state level: detect new corners on camera 0 (masking and existing
positions absorbed into the detector oracle), create their ids, patch
stacks and camera-0 records, then stereo-seed camera 1. -/
def addPoints (ops : PipeOps) (st : FlowSt) : FlowSt :=
  let corners := ops.detect st.t_ns (st.kmaps.getD 0 [])
  let r := corners.foldl (detectStep ops st.t_ns) (st, [])
  let ctx := { ops.stereoBase st.t_ns with depth := st.depth }
  { r.1 with kmaps := stereoSeed ctx ops.numCams r.2 r.1.kmaps }

/-- `PatchOpticalFlow::filterPoints` applied to the state's keypoint
maps: only camera 1's map is replaced. -/
def filterPointsSt (ops : PipeOps) (st : FlowSt) : FlowSt :=
  let r := filterPoints ops.numCams ops.unp0 ops.unp1 ops.E ops.epiErr
      (st.kmaps.getD 0 []) (st.kmaps.getD 1 [])
  if ops.numCams < 2 then st
  else { st with kmaps := st.kmaps.set 1 r.2 }

/-- One frame bundle (`OpticalFlowInput`): the timestamp and the
per-camera image payloads (`none` models a null `img` pointer; the image
content itself is consumed only through the oracles). -/
structure PFrame where
  t : ℤ
  imgs : List (Option Unit)
deriving DecidableEq, Repr

/-- An emitted result bundle (`OpticalFlowResult` together with the
`depth_guess` telemetry field of its retained `input_images`):
`depthGuess = none` models that no `trackPoints` call of this frame ever
assigned `input_images->depth_guess` on the emitted payload (monocular
rigs: the temporal tracking calls write the previous frame's payload,
and `addPoints` performs no stereo call). -/
structure Emitted where
  t : ℤ
  depthGuess : Option ℚ
  kmaps : List KpMap
deriving Repr

/-- Whether any per-camera payload of the frame is missing
(`for (const auto& v : new_img_vec->img_data) if (!v.img.get()) return;`). -/
def missingPayload (f : PFrame) : Bool := f.imgs.any (fun o => o.isNone)

/-- `PatchOpticalFlow::processFrame` (patch_optical_flow.h lines
123-182).  A frame with any missing payload returns immediately: no
state change, no output.  Otherwise: on the first frame (`t_ns < 0`)
build pyramids, start fresh keypoint maps, detect + stereo-seed +
epipolar-filter; on later frames build the new pyramids, temporally
track every camera's keypoints (camera `i` to itself), then detect +
stereo-seed + epipolar-filter.  The result is pushed iff an output queue
is attached and `frame_counter % optical_flow_skip_frames == 0`, and
`frame_counter` is incremented only after that test.  The emitted
`depth_guess` field is assigned (with the worker's drained depth) only
by the `trackPoints` call of `addPoints`, which runs iff the rig has
more than one camera.  `trackOrInit` is the branch on `t_ns < 0`
(patch_optical_flow.h lines 128-171): bootstrap with fresh keypoint maps,
or temporal tracking of every camera's keypoints (camera `i` to itself)
into the new maps. -/
def trackOrInit (ops : PipeOps) (st : FlowSt) (f : PFrame) : FlowSt :=
  if st.t_ns < 0 then
    { st with
        t_ns := f.t,
        pyrFrame := some f.t,
        kmaps := List.replicate ops.numCams [] }
  else
    { st with
        t_ns := f.t,
        pyrFrame := some f.t,
        kmaps := (List.range ops.numCams).map
          (fun i => trackPoints (ops.tempCtx f.t i) (st.kmaps.getD i [])) }

/-- The non-missing part of `PatchOpticalFlow::processFrame`. -/
def processFrame (ops : PipeOps) (st : FlowSt) (f : PFrame) :
    FlowSt × Option Emitted :=
  if missingPayload f then (st, none)
  else
    let st2 := filterPointsSt ops (addPoints ops (trackOrInit ops st f))
    let out :=
      if ops.queueAttached ∧ st.frameCounter % ops.skip = 0 then
        some ⟨f.t,
              if 1 < ops.numCams then some st.depth else none,
              st2.kmaps⟩
      else none
    ({ st2 with frameCounter := st.frameCounter + 1 }, out)

/-- Draining the depth-guess channel
(`while (input_depth_queue.try_pop(depth_guess)) continue;`): the values
pushed since the last drain are popped in order, each overwriting
`depth_guess`, so the last pushed value wins; an empty channel leaves
the current value. -/
def drainDepth (pushes : List ℚ) (cur : ℚ) : ℚ := pushes.foldl (fun _ v => v) cur

/-- One iteration's input of `processingLoop`: the depth values pushed
on `input_depth_queue` since the previous iteration, and the popped
frame bundle (`none` models the null termination sentinel). -/
structure Bundle where
  depthPushes : List ℚ
  frame : Option PFrame

/-- `PatchOpticalFlow::processingLoop` (patch_optical_flow.h lines
105-121): per iteration, drain the depth channel, pop the next bundle;
a null bundle forwards a null on the output queue and exits; otherwise
`processFrame` runs and its output (if any) is pushed.  Returns the
final state and the emitted stream (`some e` a result push, `none` the
forwarded null sentinel). -/
def runLoop (ops : PipeOps) (st : FlowSt) :
    List Bundle → FlowSt × List (Option Emitted)
  | [] => (st, [])
  | b :: rest =>
    let st0 := { st with depth := drainDepth b.depthPushes st.depth }
    match b.frame with
    | none => (st0, [none])
    | some f =>
      let r := processFrame ops st0 f
      let tail := runLoop ops r.1 rest
      (tail.1, (match r.2 with
        | some e => [some e]
        | none => []) ++ tail.2)

/-- The id/patch-store invariant of a tracker state: the keys of the
patch store are strictly increasing in insertion order (so ids are
globally unique and assigned monotonically) and every stored key is
below `last_keypoint_id` (so a fresh id is never a reuse). -/
def PatchInv (st : FlowSt) : Prop :=
  List.Pairwise (· < ·) (st.patches.map Prod.fst) ∧
  ∀ p ∈ st.patches, p.1 < st.lastId

/-! Concrete instances used by the witnesses and counterexamples. -/

/-- A sample affine warp. -/
def wC : Affine2 := ⟨Mat2.id, (5, 5)⟩

/-- A concrete level context whose Gauss-Newton step succeeds: empty
pattern, zero increment, identity exponential, a 10×10 image. -/
def cC : LevelCtx :=
  { residual := fun _ => some []
    cols := []
    isFin := fun _ => true
    se2exp := fun _ => ⟨Mat2.id, (0, 0)⟩
    pattern := []
    w := 10
    h := 10
    maxIters := 2 }

/-- A sample keypoint at pixel (3, 4). -/
def kpC : Kp := ⟨⟨Mat2.id, (3, 4)⟩, 7, false⟩

/-- A concrete matching context from camera 0 to camera 1 in which
tracking trivially succeeds (the track oracles return their input
unchanged, the guess type needs no depth). -/
def ctx01C : TrackCtx :=
  { cam1 := 0
    cam2 := 1
    guessType := MatchingGuessType.SAME_PIXEL
    depth := 1
    w2 := 10
    h2 := 10
    viewOffset := fun _ _ => (0, 0)
    trkDst := fun _ w => (w, true)
    trkSrc := fun _ w => (w, true)
    maxDist2 := 1 }

/-- The same trivially succeeding matching context, from camera 0 to
camera 2: bidirectional tracking from camera 0 to camera 2 would accept
the sample keypoint. -/
def ctx02C : TrackCtx := { ctx01C with cam2 := 2 }

/-- The all-zero essential matrix, giving zero epipolar residual for
every bearing pair. -/
def EC : Mat4 := ((0, 0, 0, 0), (0, 0, 0, 0), (0, 0, 0, 0), (0, 0, 0, 0))

/-- A concrete pipeline with three calibrated cameras whose detector
finds the sample corner on the first frame. -/
def ops3C : PipeOps :=
  { levels := 1
    skip := 1
    numCams := 3
    queueAttached := true
    detect := fun _ m => if m.isEmpty then [(3, 4)] else []
    descr := fun _ _ => 7
    tempCtx := fun _ _ => ctx01C
    stereoBase := fun _ => ctx01C
    unp0 := fun _ => some (1, 0, 0, 0)
    unp1 := fun _ => some (1, 0, 0, 0)
    E := EC
    epiErr := 1 }

/-- The same pipeline restricted to a single (monocular) camera. -/
def ops1C : PipeOps := { ops3C with numCams := 1 }

/-- The fresh tracker state before the first frame (`t_ns = -1`), with
depth guess 17. -/
def st0C : FlowSt :=
  { t_ns := -1
    frameCounter := 0
    lastId := 0
    depth := 17
    patches := []
    kmaps := []
    pyrFrame := none }

/-- A complete single-camera frame at timestamp 5. -/
def f1C : PFrame := ⟨5, [some ()]⟩

/-- A complete three-camera frame at timestamp 5. -/
def f3C : PFrame := ⟨5, [some (), some (), some ()]⟩

/-- A three-camera frame whose second payload is missing. -/
def fMissC : PFrame := ⟨5, [some (), none, some ()]⟩

/-! ## Helper lemmas -/

theorem vmul_vdiv_cancel (v : Vec2) (s : ℚ) (hs : s ≠ 0) : vmul (vdiv v s) s = v := by
  rcases v with ⟨x, y⟩
  simp [vmul, vdiv, div_mul_cancel₀, hs]

theorem gnIter_zero (c : LevelCtx) (w : Affine2) : gnIter c 0 w = w := rfl

theorem gnIter_succ (c : LevelCtx) (k : ℕ) (w : Affine2) :
    gnIter c (k + 1) w = gnIter c k (gnStep c w).1 :=
  Function.iterate_succ_apply _ _ _

theorem gnStep_true_iff (c : LevelCtx) (w : Affine2) :
    (gnStep c w).2 = true ↔
      ∃ res, c.residual (transformedPattern w c.pattern) = some res ∧
        c.isFin (incOf c.cols res) = true ∧
        linf3 (incOf c.cols res) < 1000000 ∧
        inBoundsB c.w c.h 2 ((w.comp (c.se2exp (incOf c.cols res))).t) = true := by
  unfold gnStep
  cases hres : c.residual (transformedPattern w c.pattern) with
  | none => simp
  | some res =>
    dsimp only
    by_cases hg : c.isFin (incOf c.cols res) = true ∧ linf3 (incOf c.cols res) < 1000000
    · rw [if_pos hg]
      constructor
      · intro h
        exact ⟨res, rfl, hg.1, hg.2, h⟩
      · rintro ⟨res2, hres2, _, _, hb⟩
        rw [Option.some.injEq] at hres2
        cases hres2
        exact hb
    · rw [if_neg hg]
      constructor
      · intro h
        cases h
      · rintro ⟨res2, hres2, hf, hl, _⟩
        rw [Option.some.injEq] at hres2
        cases hres2
        exact absurd ⟨hf, hl⟩ hg

theorem gnStep_true_fst (c : LevelCtx) (w : Affine2) (h : (gnStep c w).2 = true) :
    ∃ res, c.residual (transformedPattern w c.pattern) = some res ∧
      (gnStep c w).1 = w.comp (c.se2exp (incOf c.cols res)) := by
  unfold gnStep at h ⊢
  cases hres : c.residual (transformedPattern w c.pattern) with
  | none =>
    rw [hres] at h
    dsimp only at h
    cases h
  | some res =>
    rw [hres] at h
    dsimp only at h ⊢
    by_cases hg : c.isFin (incOf c.cols res) = true ∧ linf3 (incOf c.cols res) < 1000000
    · rw [if_pos hg]
      exact ⟨res, rfl, rfl⟩
    · rw [if_neg hg] at h
      cases h

theorem trackAtLevelLoop_true_iff (c : LevelCtx) :
    ∀ (n : ℕ) (w : Affine2),
      (trackAtLevelLoop c n w).2 = true ↔
        ∀ k < n, (gnStep c (gnIter c k w)).2 = true := by
  intro n
  induction n with
  | zero => intro w; simp [trackAtLevelLoop]
  | succ n ih =>
    intro w
    simp only [trackAtLevelLoop]
    cases hs : (gnStep c w).2 with
    | false =>
      simp only [hs, Bool.false_eq_true, if_false]
      constructor
      · intro h; cases h
      · intro hall
        have h0 := hall 0 (Nat.succ_pos n)
        rw [gnIter_zero] at h0
        rw [hs] at h0
        cases h0
    | true =>
      simp only [hs, if_true]
      rw [ih]
      constructor
      · intro h k hk
        cases k with
        | zero => rw [gnIter_zero]; exact hs
        | succ k =>
          rw [gnIter_succ]
          exact h k (Nat.lt_of_succ_lt_succ hk)
      · intro h k hk
        rw [← gnIter_succ]
        exact h (k + 1) (Nat.succ_lt_succ hk)

theorem trackPointLoop_pv_of_true (pv : ℕ → Bool) (step : ℕ → Affine2 → Affine2 × Bool) :
    ∀ (l : ℕ) (w : Affine2),
      (trackPointLoop pv step l w).2 = true → ∀ k ≤ l, pv k = true := by
  intro l
  induction l with
  | zero =>
    intro w h k hk
    rw [Nat.le_zero.mp hk]
    by_contra hc
    rw [Bool.not_eq_true] at hc
    unfold trackPointLoop at h
    rw [hc] at h
    simp at h
  | succ l ih =>
    intro w h k hk
    have hpv : pv (l + 1) = true := by
      by_contra hc
      rw [Bool.not_eq_true] at hc
      unfold trackPointLoop at h
      rw [hc] at h
      simp at h
    rcases Nat.lt_or_ge k (l + 1) with hlt | hge
    · unfold trackPointLoop at h
      rw [hpv] at h
      simp only [if_true] at h
      cases hr : (step (l + 1) ⟨w.lin, vdiv w.t (2 ^ (l + 1))⟩).2 with
      | false => rw [hr] at h; simp at h
      | true =>
        rw [hr] at h
        simp only [if_true] at h
        exact ih _ h k (Nat.lt_succ_iff.mp hlt)
    · rw [Nat.le_antisymm hk hge]
      exact hpv

theorem trackPointLoop_lin (pv : ℕ → Bool) (step : ℕ → Affine2 → Affine2 × Bool)
    (hstep : ∀ k w2, ((step k w2).1).lin = w2.lin) :
    ∀ (l : ℕ) (w : Affine2), ((trackPointLoop pv step l w).1).lin = w.lin := by
  intro l
  induction l with
  | zero =>
    intro w
    unfold trackPointLoop
    cases hpv : pv 0 with
    | false => simp
    | true =>
      simp only [if_true]
      cases hr : (step 0 ⟨w.lin, vdiv w.t (2 ^ 0)⟩).2 with
      | false => simpa using hstep 0 ⟨w.lin, vdiv w.t (2 ^ 0)⟩
      | true => simpa using hstep 0 ⟨w.lin, vdiv w.t (2 ^ 0)⟩
  | succ l ih =>
    intro w
    unfold trackPointLoop
    cases hpv : pv (l + 1) with
    | false => simp
    | true =>
      simp only [if_true]
      cases hr : (step (l + 1) ⟨w.lin, vdiv w.t (2 ^ (l + 1))⟩).2 with
      | false => simpa using hstep (l + 1) ⟨w.lin, vdiv w.t (2 ^ (l + 1))⟩
      | true =>
        simp only [hr, if_true]
        rw [ih]
        simpa using hstep (l + 1) ⟨w.lin, vdiv w.t (2 ^ (l + 1))⟩

theorem descend_succ_shift (step : ℕ → Affine2 → Affine2 × Bool) (levels : ℕ)
    (w : Affine2) : ∀ k, descend step (levels + 1) (k + 1) w =
      descend step levels k (passWarp step (levels + 1) w) := by
  intro k
  induction k with
  | zero => rfl
  | succ k ih =>
    show passWarp step (levels + 1 - (k + 1)) (descend step (levels + 1) (k + 1) w) = _
    rw [ih]
    have hsub : levels + 1 - (k + 1) = levels - k := by omega
    rw [hsub]
    rfl

theorem trackPointLoop_zero_true (pv : ℕ → Bool) (step : ℕ → Affine2 → Affine2 × Bool)
    (w : Affine2) :
    (trackPointLoop pv step 0 w).2 = true ↔
      pv 0 = true ∧ (step 0 ⟨w.lin, vdiv w.t ((2 : ℚ) ^ 0)⟩).2 = true := by
  unfold trackPointLoop
  cases hpv : pv 0 with
  | false => simp [hpv]
  | true =>
    simp only [if_true]
    cases hr : (step 0 ⟨w.lin, vdiv w.t ((2 : ℚ) ^ 0)⟩).2 with
    | false => simp [hr]
    | true => simp [hr]

theorem trackPointLoop_succ_true (pv : ℕ → Bool) (step : ℕ → Affine2 → Affine2 × Bool)
    (l : ℕ) (w : Affine2) :
    (trackPointLoop pv step (l + 1) w).2 = true ↔
      pv (l + 1) = true ∧
      (step (l + 1) ⟨w.lin, vdiv w.t ((2 : ℚ) ^ (l + 1))⟩).2 = true ∧
      (trackPointLoop pv step l (passWarp step (l + 1) w)).2 = true := by
  conv_lhs => unfold trackPointLoop
  cases hpv : pv (l + 1) with
  | false => simp [hpv]
  | true =>
    simp only [if_true]
    cases hr : (step (l + 1) ⟨w.lin, vdiv w.t ((2 : ℚ) ^ (l + 1))⟩).2 with
    | false => simp [hr]
    | true =>
      simp only [hpv, hr, if_true, true_and]
      constructor
      · intro h
        exact h
      · intro h
        exact h

theorem trackPointLoop_true_iff_steps (pv : ℕ → Bool)
    (step : ℕ → Affine2 → Affine2 × Bool) :
    ∀ (levels : ℕ) (w : Affine2),
      (trackPointLoop pv step levels w).2 = true ↔
        ∀ k ≤ levels, pv (levels - k) = true ∧
          (step (levels - k) ⟨(descend step levels k w).lin,
            vdiv (descend step levels k w).t ((2 : ℚ) ^ (levels - k))⟩).2 = true := by
  intro levels
  induction levels with
  | zero =>
    intro w
    rw [trackPointLoop_zero_true]
    constructor
    · intro h k hk
      have hk0 : k = 0 := Nat.le_zero.mp hk
      subst hk0
      exact h
    · intro hall
      exact hall 0 (le_refl 0)
  | succ l ih =>
    intro w
    rw [trackPointLoop_succ_true, ih (passWarp step (l + 1) w)]
    constructor
    · rintro ⟨h1, h2, h3⟩ k hk
      cases k with
      | zero => exact ⟨h1, h2⟩
      | succ k =>
        have hk2 : k ≤ l := Nat.succ_le_succ_iff.mp hk
        have hsub : l + 1 - (k + 1) = l - k := by omega
        rw [descend_succ_shift, hsub]
        exact h3 k hk2
    · intro hall
      refine ⟨(hall 0 (Nat.zero_le _)).1, (hall 0 (Nat.zero_le _)).2, ?_⟩
      intro k hk
      have := hall (k + 1) (Nat.succ_le_succ hk)
      have hsub : l + 1 - (k + 1) = l - k := by omega
      rw [descend_succ_shift, hsub] at this
      exact this

/-! ## Claim theorems -/

/-- C10: `trackPoint` always leaves the translation in level-0 pixel
coordinates: the code's level loop, in which the division of the
translation by `2^level` on entering a level and the multiplication by
`2^level` before leaving it are separate mutations (performed even on
the invalid-patch abort and on a failed level), coincides exactly — for
every patch-validity assignment, every per-level tracker, every starting
level and every warp — with the rescaling-free presentation in which the
scaling never escapes a level and the abort path returns the warp
untouched. -/
theorem trackPointLoop_eq_level0 (pv : ℕ → Bool) (step : ℕ → Affine2 → Affine2 × Bool) :
    ∀ (l : ℕ) (w : Affine2), trackPointLoop pv step l w = trackPointLoopL0 pv step l w := by
  intro l
  induction l with
  | zero =>
    intro w
    unfold trackPointLoop trackPointLoopL0
    cases hpv : pv 0 with
    | false =>
      simp only [Bool.false_eq_true, if_false]
      rw [vmul_vdiv_cancel w.t (2 ^ 0) (by norm_num)]
    | true => rfl
  | succ l ih =>
    intro w
    unfold trackPointLoop trackPointLoopL0
    cases hpv : pv (l + 1) with
    | false =>
      simp only [Bool.false_eq_true, if_false]
      rw [vmul_vdiv_cancel w.t (2 ^ (l + 1)) (by positivity)]
    | true =>
      simp only [if_true]
      cases hr : (step (l + 1) ⟨w.lin, vdiv w.t (2 ^ (l + 1))⟩).2 with
      | false => rfl
      | true =>
        simp only [hr, if_true]
        exact ih _

/-- C3: the coarse-to-fine loop of `trackPoint` iterates the pyramid
levels from `optical_flow_levels` down to 0 and succeeds iff at every
visited level (level `levels - k` for the `k`-th pass, reached with the
warp `descend` threads through the earlier passes, its translation
divided by `2^level` on entry and multiplied back on exit) the
reference patch is valid and the per-level tracker call succeeds — so
an invalid reference patch at any level, and equally a per-level
tracker failure at any level, makes the whole call return failure —
and the 2×2 linear part of the warp is never rescaled between levels:
if the per-level tracker preserves it, so does the whole loop. -/
theorem trackPoint_coarse_to_fine (levels : ℕ) (pv : ℕ → Bool)
    (step : ℕ → Affine2 → Affine2 × Bool) (w : Affine2) :
    ((trackPoint levels pv step w).2 = true ↔
      ∀ k ≤ levels, pv (levels - k) = true ∧
        (step (levels - k) ⟨(descend step levels k w).lin,
          vdiv (descend step levels k w).t ((2 : ℚ) ^ (levels - k))⟩).2 = true) ∧
    ((trackPoint levels pv step w).2 = true → ∀ k ≤ levels, pv k = true) ∧
    ((∃ k, k ≤ levels ∧ pv k = false) → (trackPoint levels pv step w).2 = false) ∧
    ((∃ k, k ≤ levels ∧
        (step (levels - k) ⟨(descend step levels k w).lin,
          vdiv (descend step levels k w).t ((2 : ℚ) ^ (levels - k))⟩).2 = false) →
      (trackPoint levels pv step w).2 = false) ∧
    ((∀ k w2, ((step k w2).1).lin = w2.lin) →
      ((trackPoint levels pv step w).1).lin = w.lin) := by
  refine ⟨trackPointLoop_true_iff_steps pv step levels w,
    fun h => trackPointLoop_pv_of_true pv step levels w h, ?_, ?_, ?_⟩
  · rintro ⟨k, hk, hpv⟩
    by_contra hc
    rw [Bool.not_eq_false] at hc
    have := trackPointLoop_pv_of_true pv step levels w hc k hk
    rw [hpv] at this
    cases this
  · rintro ⟨k, hk, hf⟩
    by_contra hc
    rw [Bool.not_eq_false] at hc
    have := ((trackPointLoop_true_iff_steps pv step levels w).mp hc k hk).2
    rw [hf] at this
    cases this
  · intro hstep
    exact trackPointLoop_lin pv step hstep levels w

/-- Witness for C3 at concrete inputs: a per-level tracker that fails at
level 0 makes the whole two-level call fail, and the identity-preserving
tracker with all patches valid leaves the linear part of the sample warp
unchanged. -/
theorem trackPoint_coarse_to_fine_witness :
    (trackPoint 1 (fun _ => true) (fun l w2 => (w2, decide (0 < l))) wC).2 = false ∧
    ((trackPoint 1 (fun _ => true) (fun _ w2 => (w2, true)) wC).1).lin = Mat2.id :=
  ⟨(trackPoint_coarse_to_fine 1 (fun _ => true) (fun l w2 => (w2, decide (0 < l)))
      wC).2.2.2.1 ⟨1, le_refl 1, rfl⟩,
   (trackPoint_coarse_to_fine 1 (fun _ => true) (fun _ w2 => (w2, true)) wC).2.2.2.2
    (fun _ _ => rfl)⟩

/-- C2: the per-level Gauss-Newton tracker — one step succeeds iff
sampling the pattern at `warp.linear * pattern + warp.translation`
succeeds, the increment `-H_se2_inv_J_se2_T * res` is finite with
infinity norm below `10^6`, and the translation of the composed warp
`warp * exp_SE2(inc)` stays 2 pixels inside the image borders; a
successful step produces exactly that composed warp; and the call, which
performs at most `optical_flow_max_iterations` iterations, succeeds iff
no step failed. -/
theorem trackPointAtLevel_spec (c : LevelCtx) (w : Affine2) :
    ((gnStep c w).2 = true ↔
      ∃ res, c.residual (transformedPattern w c.pattern) = some res ∧
        c.isFin (incOf c.cols res) = true ∧
        linf3 (incOf c.cols res) < 1000000 ∧
        inBoundsB c.w c.h 2 ((w.comp (c.se2exp (incOf c.cols res))).t) = true) ∧
    ((gnStep c w).2 = true →
      ∃ res, c.residual (transformedPattern w c.pattern) = some res ∧
        (gnStep c w).1 = w.comp (c.se2exp (incOf c.cols res))) ∧
    ((trackPointAtLevel c w).2 = true ↔
      ∀ k < c.maxIters, (gnStep c (gnIter c k w)).2 = true) := by
  exact ⟨gnStep_true_iff c w, gnStep_true_fst c w,
    trackAtLevelLoop_true_iff c c.maxIters w⟩

/-- Witness for C2 at a concrete input: the sample level context's step
succeeds on the sample warp and produces the composed warp. -/
theorem trackPointAtLevel_spec_witness :
    ∃ res, cC.residual (transformedPattern wC cC.pattern) = some res ∧
      (gnStep cC wC).1 = wC.comp (cC.se2exp (incOf cC.cols res)) :=
  (trackPointAtLevel_spec cC wC).2.1 (by
    simp [gnStep, cC, wC, incOf, matVecCols, v3neg, linf3, inBoundsB,
      Affine2.comp, Mat2.mul, Mat2.mulVec, Mat2.id, vadd, transformedPattern]
    norm_num)

theorem processOne_some_iff (ctx : TrackCtx) (id : ℕ) (kp kp2 : Kp) :
    processOne ctx id kp = some kp2 ↔
      (let t1 := kp.pose.t
       let off := theOff ctx t1
       let t2 := vsub t1 off
       let fwd := ctx.trkDst id ⟨kp.pose.lin, t2⟩
       let back := ctx.trkSrc id ⟨fwd.1.lin, vadd fwd.1.t off⟩
       (0 ≤ t2.1 ∧ 0 ≤ t2.2 ∧ t2.1 < ctx.w2 ∧ t2.2 < ctx.h2) ∧
       fwd.2 = true ∧ back.2 = true ∧
       sqNorm (vsub t1 back.1.t) < ctx.maxDist2 ∧
       kp2 = ⟨fwd.1, kp.descr, true⟩) := by
  unfold processOne
  dsimp only
  split_ifs with h1 h2 h3 h4 <;> simp_all
  exact comm

/-- C1: the bidirectional tracking contract of `trackPoints` — a
keypoint appears in the output map iff (with offset `Δ = theOff`, which
is `viewOffset(t1, depth, cam1, cam2)` when the cameras differ and the
guess type is not `SAME_PIXEL` and zero otherwise) the prior `t1 - Δ`
lies in `[0, w) × [0, h)` of the destination level-0 image, the forward
`trackPoint` on the destination pyramid succeeds, the backward
`trackPoint` on the source pyramid started from the forward result with
`Δ` added back succeeds, and the squared distance between the recovered
translation and `t1` is strictly below
`optical_flow_max_recovered_dist2`; the emitted record carries the
forward-tracked warp. -/
theorem trackPoints_bidirectional (ctx : TrackCtx) (input : KpMap) (id : ℕ) (kp2 : Kp) :
    (id, kp2) ∈ trackPoints ctx input ↔
      ∃ kp, (id, kp) ∈ input ∧
        (let t1 := kp.pose.t
         let off := theOff ctx t1
         let t2 := vsub t1 off
         let fwd := ctx.trkDst id ⟨kp.pose.lin, t2⟩
         let back := ctx.trkSrc id ⟨fwd.1.lin, vadd fwd.1.t off⟩
         (0 ≤ t2.1 ∧ 0 ≤ t2.2 ∧ t2.1 < ctx.w2 ∧ t2.2 < ctx.h2) ∧
         fwd.2 = true ∧ back.2 = true ∧
         sqNorm (vsub t1 back.1.t) < ctx.maxDist2 ∧
         kp2 = ⟨fwd.1, kp.descr, true⟩) := by
  unfold trackPoints
  rw [List.mem_filterMap]
  constructor
  · rintro ⟨⟨i, kp⟩, hin, hmap⟩
    rw [Option.map_eq_some'] at hmap
    obtain ⟨kp3, hpo, heq⟩ := hmap
    have hi : i = id := congrArg Prod.fst heq
    have hk : kp3 = kp2 := congrArg Prod.snd heq
    subst hi
    subst hk
    exact ⟨kp, hin, (processOne_some_iff ctx i kp kp3).mp hpo⟩
  · rintro ⟨kp, hin, hc⟩
    refine ⟨(id, kp), hin, ?_⟩
    rw [Option.map_eq_some']
    exact ⟨kp2, (processOne_some_iff ctx id kp kp2).mpr hc, rfl⟩

theorem keepKp_true_iff (unp0 unp1 : Vec2 → Option Vec4) (E : Mat4) (thr : ℚ)
    (kps0 : KpMap) (id : ℕ) (kp : Kp) :
    keepKp unp0 unp1 E thr kps0 id kp = true ↔
      (List.lookup id kps0 = none ∨
        ∃ kp0 f0 f1, List.lookup id kps0 = some kp0 ∧
          unp0 kp0.pose.t = some f0 ∧ unp1 kp.pose.t = some f1 ∧
          |epiForm E f0 f1| ≤ thr) := by
  unfold keepKp
  cases h0 : List.lookup id kps0 with
  | none => simp
  | some kp0 =>
    dsimp only
    cases hf0 : unp0 kp0.pose.t with
    | none =>
      cases hf1 : unp1 kp.pose.t with
      | none =>
        dsimp only
        constructor
        · intro h; cases h
        · rintro (hnone | ⟨kp0x, f0x, f1x, hk, h0x, h1x, hle⟩)
          · cases hnone
          · rw [Option.some.injEq] at hk
            subst hk
            rw [hf0] at h0x
            cases h0x
      | some f1 =>
        dsimp only
        constructor
        · intro h; cases h
        · rintro (hnone | ⟨kp0x, f0x, f1x, hk, h0x, h1x, hle⟩)
          · cases hnone
          · rw [Option.some.injEq] at hk
            subst hk
            rw [hf0] at h0x
            cases h0x
    | some f0 =>
      cases hf1 : unp1 kp.pose.t with
      | none =>
        dsimp only
        constructor
        · intro h; cases h
        · rintro (hnone | ⟨kp0x, f0x, f1x, hk, h0x, h1x, hle⟩)
          · cases hnone
          · exact Option.noConfusion h1x
      | some f1 =>
        dsimp only
        rw [decide_eq_true_eq]
        constructor
        · intro hle
          exact Or.inr ⟨kp0, f0, f1, rfl, hf0, rfl, hle⟩
        · rintro (hnone | ⟨kp0x, f0x, f1x, hk, h0x, h1x, hle⟩)
          · cases hnone
          · rw [Option.some.injEq] at hk
            subst hk
            rw [hf0, Option.some.injEq] at h0x
            subst h0x
            rw [Option.some.injEq] at h1x
            subst h1x
            exact hle

/-- C4: the epipolar filter — with fewer than two calibrated cameras
`filterPoints` changes nothing; camera 0's map is always returned
unchanged; and with at least two cameras, a keypoint of camera 1 that is
also present in camera 0 survives iff both unprojections succeed and the
absolute algebraic epipolar residual is at most
`optical_flow_epipolar_error` (so it is erased, from camera 1 only, iff
an unprojection fails or the residual exceeds the threshold), while a
keypoint present in camera 1 only is always kept. -/
theorem filterPoints_epipolar (numCams : ℕ) (unp0 unp1 : Vec2 → Option Vec4)
    (E : Mat4) (thr : ℚ) (kps0 kps1 : KpMap) (id : ℕ) (kp : Kp) :
    (numCams < 2 → filterPoints numCams unp0 unp1 E thr kps0 kps1 = (kps0, kps1)) ∧
    (filterPoints numCams unp0 unp1 E thr kps0 kps1).1 = kps0 ∧
    (2 ≤ numCams →
      ((id, kp) ∈ (filterPoints numCams unp0 unp1 E thr kps0 kps1).2 ↔
        (id, kp) ∈ kps1 ∧
          (List.lookup id kps0 = none ∨
            ∃ kp0 f0 f1, List.lookup id kps0 = some kp0 ∧
              unp0 kp0.pose.t = some f0 ∧ unp1 kp.pose.t = some f1 ∧
              |epiForm E f0 f1| ≤ thr))) := by
  refine ⟨fun h => by simp [filterPoints, h], ?_, fun h => ?_⟩
  · unfold filterPoints
    split_ifs <;> rfl
  · unfold filterPoints
    rw [if_neg (by omega)]
    simp only [List.mem_filter]
    rw [keepKp_true_iff]

/-- Witness for C4 at a concrete input: with two cameras, the zero
essential matrix and successful unprojections, the sample keypoint
present in both cameras is kept in camera 1. -/
theorem filterPoints_epipolar_witness :
    (0, kpC) ∈ (filterPoints 2 (fun _ => some (1, 0, 0, 0)) (fun _ => some (1, 0, 0, 0))
        EC 1 [(0, kpC)] [(0, kpC)]).2 ↔
      (0, kpC) ∈ [(0, kpC)] ∧
        (List.lookup 0 [(0, kpC)] = none ∨
          ∃ kp0 f0 f1, List.lookup 0 [(0, kpC)] = some kp0 ∧
            some (1, 0, 0, 0) = some f0 ∧ some (1, 0, 0, 0) = some f1 ∧
            |epiForm EC f0 f1| ≤ 1) :=
  (filterPoints_epipolar 2 (fun _ => some (1, 0, 0, 0)) (fun _ => some (1, 0, 0, 0))
    EC 1 [(0, kpC)] [(0, kpC)] 0 kpC).2.2 (by norm_num)

theorem getD_set_ne (l : List KpMap) (j : ℕ) (m : KpMap) (h : (1 : ℕ) ≠ j) :
    (l.set 1 m).getD j [] = l.getD j [] := by
  simp [List.getD_eq_getElem?_getD, List.getElem?_set_ne h]

theorem getD_set_one (l : List KpMap) (m : KpMap) (h : 1 < l.length) :
    (l.set 1 m).getD 1 [] = m := by
  simp [List.getD_eq_getElem?_getD, List.getElem?_set_self h]

theorem emplace_fresh (m : KpMap) (p : ℕ × Kp) (h : List.lookup p.1 m = none) :
    emplace m p = m ++ [p] := by
  simp [emplace, h]

theorem emplaceAll_fresh (news : KpMap) : ∀ (m : KpMap),
    (∀ p ∈ news, List.lookup p.1 m = none) →
    List.Pairwise (fun p q => p.1 ≠ q.1) news →
    emplaceAll m news = m ++ news := by
  induction news with
  | nil =>
    intro m _ _
    simp [emplaceAll]
  | cons p rest ih =>
    intro m hfresh hpw
    unfold emplaceAll
    simp only [List.foldl_cons]
    rw [emplace_fresh m p (hfresh p (by simp))]
    have hrest : ∀ q ∈ rest, List.lookup q.1 (m ++ [p]) = none := by
      intro q hq
      rw [List.lookup_append, hfresh q (by simp [hq])]
      have hne : q.1 ≠ p.1 := ((List.pairwise_cons.mp hpw).1 q hq).symm
      simp [List.lookup_eq_none_iff, hne]
    have hres := ih (m ++ [p]) hrest (List.pairwise_cons.mp hpw).2
    unfold emplaceAll at hres
    rw [hres, List.append_assoc]
    rfl

/-- C5 (amended): the stereo-seeding block of `addPoints` touches only
camera 1 — with at most one camera nothing changes; every camera index
other than 1 keeps its map unchanged (in particular cameras 2..N−1 of a
rig with more than two cameras receive no stereo seeding); and with more
than one camera, when the matched ids are fresh for camera 1 (as the
monotone id assignment guarantees), camera 1's map is extended by
exactly the successful forward-backward-consistent matches
`trackPoints ctx new_kpts0`. -/
theorem stereoSeed_camera1_only (ctx : TrackCtx) (numCams : ℕ) (news : KpMap)
    (maps : List KpMap) :
    (numCams ≤ 1 → stereoSeed ctx numCams news maps = maps) ∧
    (∀ j, j ≠ 1 → (stereoSeed ctx numCams news maps).getD j [] = maps.getD j []) ∧
    (1 < numCams → 1 < maps.length →
      (∀ p ∈ trackPoints ctx news, List.lookup p.1 (maps.getD 1 []) = none) →
      List.Pairwise (fun p q => p.1 ≠ q.1) (trackPoints ctx news) →
      (stereoSeed ctx numCams news maps).getD 1 [] =
        maps.getD 1 [] ++ trackPoints ctx news) := by
  refine ⟨fun h => ?_, fun j hj => ?_, fun h1 h2 h3 h4 => ?_⟩
  · unfold stereoSeed
    rw [if_neg (by omega)]
  · unfold stereoSeed
    by_cases h : 1 < numCams
    · rw [if_pos h]
      exact getD_set_ne maps j _ (fun he => hj he.symm)
    · rw [if_neg h]
  · unfold stereoSeed
    rw [if_pos h1, getD_set_one maps _ h2]
    exact emplaceAll_fresh (trackPoints ctx news) (maps.getD 1 []) h3 h4

/-- Witness for the amended C5 at a concrete input: with three cameras
and the sample match, camera 1's map receives exactly the match
results. -/
theorem stereoSeed_camera1_only_witness :
    (stereoSeed ctx01C 3 [(0, kpC)] [[], [], []]).getD 1 [] =
      ([[], [], []] : List KpMap).getD 1 [] ++ trackPoints ctx01C [(0, kpC)] :=
  (stereoSeed_camera1_only ctx01C 3 [(0, kpC)] [[], [], []]).2.2
    (by norm_num) (by norm_num)
    (by
      have h : trackPoints ctx01C [(0, kpC)] = [(0, ⟨⟨Mat2.id, (3, 4)⟩, 7, true⟩)] := by
        with_unfolding_all rfl
      rw [h]
      intro p hp
      rw [List.mem_singleton] at hp
      subst hp
      rfl)
    (by
      have h : trackPoints ctx01C [(0, kpC)] = [(0, ⟨⟨Mat2.id, (3, 4)⟩, 7, true⟩)] := by
        with_unfolding_all rfl
      rw [h]
      simp)

/-- C5 counterexample: in a three-camera rig, bidirectional tracking of
the newly detected keypoint from camera 0 to camera 2 succeeds (first
conjunct: the matcher context for cameras 0→2, with the configured guess
policy and depth, accepts it), yet after `addPoints` camera 2's keypoint
map is still empty (second conjunct) — the code seeds camera 1 only, so
the claim's "for each camera j ≠ 0" fails at j = 2. -/
theorem addPoints_misses_camera2 :
    trackPoints ctx02C [(0, kpC)] = [(0, ⟨⟨Mat2.id, (3, 4)⟩, 7, true⟩)] ∧
    (addPoints ops3C { st0C with t_ns := 5, kmaps := [[], [], []] }).kmaps.getD 2 [] = [] := by
  constructor
  · with_unfolding_all rfl
  · with_unfolding_all rfl

/-- C7: missing-frame atomicity — if any per-camera payload of a frame
is null, `processFrame` returns with the tracker state exactly as before
and pushes nothing, and the processing loop continues with the remaining
bundles as if the frame had been processed (only the depth drain of that
iteration, which happens before the pop, remains in effect). -/
theorem processFrame_missing_atomic (ops : PipeOps) (st : FlowSt) (f : PFrame)
    (ps : List ℚ) (rest : List Bundle) (h : missingPayload f = true) :
    processFrame ops st f = (st, none) ∧
    runLoop ops st (⟨ps, some f⟩ :: rest) =
      runLoop ops { st with depth := drainDepth ps st.depth } rest := by
  have h1 : ∀ st2 : FlowSt, processFrame ops st2 f = (st2, none) := by
    intro st2
    unfold processFrame
    rw [if_pos h]
  refine ⟨h1 st, ?_⟩
  have hc : runLoop ops st (⟨ps, some f⟩ :: rest) =
      ((runLoop ops (processFrame ops { st with depth := drainDepth ps st.depth } f).1 rest).1,
        (match (processFrame ops { st with depth := drainDepth ps st.depth } f).2 with
          | some e => [some e]
          | none => []) ++
        (runLoop ops (processFrame ops { st with depth := drainDepth ps st.depth } f).1 rest).2) := rfl
  rw [hc, h1 { st with depth := drainDepth ps st.depth }]
  rfl

/-- Witness for C7 at a concrete input: the frame with a missing second
payload leaves the fresh state untouched and emits nothing. -/
theorem processFrame_missing_atomic_witness :
    processFrame ops3C st0C fMissC = (st0C, none) :=
  (processFrame_missing_atomic ops3C st0C fMissC [] [] rfl).1

/-- C9: frame-skipping emission — for a fully processed frame the result
is pushed iff an output queue is attached and
`frame_counter % optical_flow_skip_frames = 0`, the counter is
incremented only after that test, and in particular the first processed
frame (counter 0) is always emitted when a queue is attached. -/
theorem processFrame_emission (ops : PipeOps) (st : FlowSt) (f : PFrame)
    (h : missingPayload f = false) :
    ((processFrame ops st f).2.isSome = true ↔
      ops.queueAttached = true ∧ st.frameCounter % ops.skip = 0) ∧
    (processFrame ops st f).1.frameCounter = st.frameCounter + 1 ∧
    (st.frameCounter = 0 → ops.queueAttached = true →
      (processFrame ops st f).2.isSome = true) := by
  unfold processFrame
  rw [if_neg (by simp [h])]
  dsimp only
  refine ⟨?_, rfl, ?_⟩
  · by_cases hc : ops.queueAttached = true ∧ st.frameCounter % ops.skip = 0
    · rw [if_pos hc]
      simp [hc]
    · rw [if_neg hc]
      simp [hc]
  · intro h0 hq
    rw [if_pos ⟨hq, by rw [h0]; exact Nat.zero_mod _⟩]
    rfl

/-- Witness for C9 at a concrete input: processing the complete
three-camera frame increments the frame counter of the fresh state. -/
theorem processFrame_emission_witness :
    (processFrame ops3C st0C f3C).1.frameCounter = st0C.frameCounter + 1 :=
  (processFrame_emission ops3C st0C f3C rfl).2.1

theorem drainDepth_append_last (ps : List ℚ) (v cur : ℚ) :
    drainDepth (ps ++ [v]) cur = v := by
  simp [drainDepth, List.foldl_append]

/-- C8 counterexample: a monocular (single-camera) run in which depth
values 1, 2, 3 are pushed before the first complete frame — the drained
worker depth is 3, but the emitted frame's `depth_guess` field was never
assigned by that frame's processing (the only `trackPoints` calls that
assign it are the stereo-seeding one, absent with one camera, and the
temporal ones, which write the previous frame's already-emitted record),
so the reported value is not the drained 3 the claim requires. -/
theorem monocular_depth_guess_unreported :
    drainDepth [1, 2, 3] st0C.depth = 3 ∧
    (runLoop ops1C st0C [⟨[1, 2, 3], some f1C⟩]).2.map
        (fun o => o.map Emitted.depthGuess) = [some none] := by
  constructor
  · rfl
  · with_unfolding_all rfl

/-- C8 (amended): the depth-guess channel is drained latest-wins before
each frame, and for a rig with at least two cameras the emitted frame
reports exactly the drained value and the stereo matching of that frame
runs with a context whose `depth` is that value (so every `viewOffset`
prior is computed at the drained depth). -/
theorem depth_guess_latest_wins_stereo (ops : PipeOps) (st : FlowSt)
    (ps : List ℚ) (v : ℚ) (f : PFrame)
    (h2 : 2 ≤ ops.numCams) (hm : missingPayload f = false) :
    drainDepth (ps ++ [v]) st.depth = v ∧
    (∀ e, (processFrame ops { st with depth := v } f).2 = some e →
      e.depthGuess = some v) ∧
    (∀ st2 : FlowSt, st2.depth = v →
      (addPoints ops st2).kmaps =
        stereoSeed { ops.stereoBase st2.t_ns with depth := v } ops.numCams
          ((ops.detect st2.t_ns (st2.kmaps.getD 0 [])).foldl
            (detectStep ops st2.t_ns) (st2, [])).2
          ((ops.detect st2.t_ns (st2.kmaps.getD 0 [])).foldl
            (detectStep ops st2.t_ns) (st2, [])).1.kmaps) := by
  refine ⟨drainDepth_append_last ps v st.depth, ?_, ?_⟩
  · intro e he
    unfold processFrame at he
    rw [if_neg (by simp [hm])] at he
    dsimp only at he
    by_cases hc : ops.queueAttached = true ∧ st.frameCounter % ops.skip = 0
    · rw [if_pos hc, Option.some.injEq] at he
      rw [← he]
      dsimp only
      rw [if_pos (by omega)]
    · rw [if_neg hc] at he
      cases he
  · intro st2 hd
    subst hd
    rfl

/-- Witness for the amended C8 at a concrete input: pushing 1, 2 and
then 3 leaves the stereo worker's drained depth at 3. -/
theorem depth_guess_latest_wins_stereo_witness :
    drainDepth ([1, 2] ++ [3]) st0C.depth = 3 :=
  (depth_guess_latest_wins_stereo ops3C st0C [1, 2] 3 f3C (by norm_num [ops3C]) rfl).1

theorem detect_fold_patches (ops : PipeOps) (t : ℤ) (cs : List Vec2) :
    ∀ (st : FlowSt) (ks : KpMap),
      ∃ news,
        (cs.foldl (detectStep ops t) (st, ks)).1.patches = st.patches ++ news ∧
        (cs.foldl (detectStep ops t) (st, ks)).1.lastId = st.lastId + cs.length ∧
        (∀ p ∈ news, st.lastId ≤ p.1 ∧ p.1 < st.lastId + cs.length ∧
          ∃ c ∈ cs, p.2 = mkStack t ops.levels c) ∧
        List.Pairwise (fun a b => a < b) (news.map Prod.fst) := by
  induction cs with
  | nil =>
    intro st ks
    exact ⟨[], by simp, by simp, by simp, by simp⟩
  | cons c cs ih =>
    intro st ks
    obtain ⟨news, hp, hl, hmem, hpw⟩ :=
      ih (detectStep ops t (st, ks) c).1 (detectStep ops t (st, ks) c).2
    refine ⟨(st.lastId, mkStack t ops.levels c) :: news, ?_, ?_, ?_, ?_⟩
    · show (cs.foldl (detectStep ops t) (detectStep ops t (st, ks) c)).1.patches = _
      rw [hp]
      show (st.patches ++ [(st.lastId, mkStack t ops.levels c)]) ++ news = _
      rw [List.append_assoc]
      rfl
    · show (cs.foldl (detectStep ops t) (detectStep ops t (st, ks) c)).1.lastId = _
      rw [hl]
      show st.lastId + 1 + cs.length = st.lastId + (c :: cs).length
      rw [List.length_cons]
      omega
    · intro p hph
      rcases List.mem_cons.mp hph with heq | hm
      · subst heq
        exact ⟨le_refl _, by rw [List.length_cons]; omega, c, by simp, rfl⟩
      · obtain ⟨h1, h2, c2, hc2, hs⟩ := hmem p hm
        have hll : (detectStep ops t (st, ks) c).1.lastId = st.lastId + 1 := rfl
        rw [hll] at h1 h2
        exact ⟨by omega, by rw [List.length_cons]; omega, c2, List.mem_cons_of_mem c hc2, hs⟩
    · rw [List.map_cons]
      rw [List.pairwise_cons]
      refine ⟨?_, hpw⟩
      intro a ha
      obtain ⟨p, hpmem, hpa⟩ := List.mem_map.mp ha
      obtain ⟨h1, _, _⟩ := hmem p hpmem
      have hll : (detectStep ops t (st, ks) c).1.lastId = st.lastId + 1 := rfl
      rw [hll] at h1
      omega

theorem addPoints_patch_effect (ops : PipeOps) (st : FlowSt) :
    ∃ news,
      (addPoints ops st).patches = st.patches ++ news ∧
      st.lastId ≤ (addPoints ops st).lastId ∧
      (∀ p ∈ news, st.lastId ≤ p.1 ∧ p.1 < (addPoints ops st).lastId ∧
        ∃ t c, p.2 = mkStack t ops.levels c) ∧
      List.Pairwise (fun a b => a < b) (news.map Prod.fst) := by
  obtain ⟨news, hp, hl, hmem, hpw⟩ :=
    detect_fold_patches ops st.t_ns (ops.detect st.t_ns (st.kmaps.getD 0 [])) st []
  have hps : (addPoints ops st).patches =
      ((ops.detect st.t_ns (st.kmaps.getD 0 [])).foldl
        (detectStep ops st.t_ns) (st, [])).1.patches := rfl
  have hls : (addPoints ops st).lastId =
      ((ops.detect st.t_ns (st.kmaps.getD 0 [])).foldl
        (detectStep ops st.t_ns) (st, [])).1.lastId := rfl
  refine ⟨news, by rw [hps, hp], by rw [hls, hl]; omega, ?_, hpw⟩
  intro p hpm
  obtain ⟨h1, h2, c, _, hs⟩ := hmem p hpm
  exact ⟨h1, by rw [hls, hl]; omega, st.t_ns, c, hs⟩

theorem filterPointsSt_keeps (ops : PipeOps) (st : FlowSt) :
    (filterPointsSt ops st).patches = st.patches ∧
    (filterPointsSt ops st).lastId = st.lastId := by
  unfold filterPointsSt
  split_ifs
  · exact ⟨rfl, rfl⟩
  · exact ⟨rfl, rfl⟩

theorem trackOrInit_keeps (ops : PipeOps) (st : FlowSt) (f : PFrame) :
    (trackOrInit ops st f).patches = st.patches ∧
    (trackOrInit ops st f).lastId = st.lastId := by
  unfold trackOrInit
  split_ifs
  · exact ⟨rfl, rfl⟩
  · exact ⟨rfl, rfl⟩

theorem processFrame_missing_eq (ops : PipeOps) (st : FlowSt) (f : PFrame)
    (h : missingPayload f = true) : processFrame ops st f = (st, none) := by
  unfold processFrame
  rw [if_pos h]

theorem processFrame_patch_effect (ops : PipeOps) (st : FlowSt) (f : PFrame) :
    ∃ news,
      (processFrame ops st f).1.patches = st.patches ++ news ∧
      st.lastId ≤ (processFrame ops st f).1.lastId ∧
      (∀ p ∈ news, st.lastId ≤ p.1 ∧ p.1 < (processFrame ops st f).1.lastId ∧
        ∃ t c, p.2 = mkStack t ops.levels c) ∧
      List.Pairwise (fun a b => a < b) (news.map Prod.fst) := by
  by_cases hm : missingPayload f = true
  · rw [processFrame_missing_eq ops st f hm]
    exact ⟨[], by simp, le_refl _, by simp, by simp⟩
  · have hfst : (processFrame ops st f).1 =
        { filterPointsSt ops (addPoints ops (trackOrInit ops st f)) with
            frameCounter := st.frameCounter + 1 } := by
      unfold processFrame
      rw [if_neg hm]
    obtain ⟨news, hp, hl, hmem, hpw⟩ := addPoints_patch_effect ops (trackOrInit ops st f)
    have hkp := filterPointsSt_keeps ops (addPoints ops (trackOrInit ops st f))
    have hkt := trackOrInit_keeps ops st f
    have hp2 : (processFrame ops st f).1.patches = st.patches ++ news := by
      rw [hfst]
      show (filterPointsSt ops (addPoints ops (trackOrInit ops st f))).patches = _
      rw [hkp.1, hp, hkt.1]
    have hl2 : (processFrame ops st f).1.lastId = (addPoints ops (trackOrInit ops st f)).lastId := by
      rw [hfst]
      show (filterPointsSt ops (addPoints ops (trackOrInit ops st f))).lastId = _
      rw [hkp.2]
    refine ⟨news, hp2, by rw [hl2, ← hkt.2]; exact hl, ?_, hpw⟩
    intro p hpm
    obtain ⟨h1, h2, t, c, hs⟩ := hmem p hpm
    rw [← hkt.2]
    exact ⟨h1, by rw [hl2]; exact h2, t, c, hs⟩

theorem runLoop_patch_effect (ops : PipeOps) (bs : List Bundle) :
    ∀ st : FlowSt,
      ∃ news,
        (runLoop ops st bs).1.patches = st.patches ++ news ∧
        st.lastId ≤ (runLoop ops st bs).1.lastId ∧
        (∀ p ∈ news, st.lastId ≤ p.1 ∧ p.1 < (runLoop ops st bs).1.lastId ∧
          ∃ t c, p.2 = mkStack t ops.levels c) ∧
        List.Pairwise (fun a b => a < b) (news.map Prod.fst) := by
  induction bs with
  | nil =>
    intro st
    exact ⟨[], by simp [runLoop], le_refl _, by simp, by simp⟩
  | cons b rest ih =>
    intro st
    obtain ⟨ps, fr⟩ := b
    cases fr with
    | none =>
      have he : runLoop ops st (⟨ps, none⟩ :: rest) =
          ({ st with depth := drainDepth ps st.depth }, [none]) := rfl
      rw [he]
      exact ⟨[], by simp, le_refl _, by simp, by simp⟩
    | some f =>
      have he : (runLoop ops st (⟨ps, some f⟩ :: rest)).1 =
          (runLoop ops
            (processFrame ops { st with depth := drainDepth ps st.depth } f).1 rest).1 := rfl
      obtain ⟨news1, hp1, hl1, hmem1, hpw1⟩ :=
        processFrame_patch_effect ops { st with depth := drainDepth ps st.depth } f
      obtain ⟨news2, hp2, hl2, hmem2, hpw2⟩ :=
        ih (processFrame ops { st with depth := drainDepth ps st.depth } f).1
      refine ⟨news1 ++ news2, ?_, ?_, ?_, ?_⟩
      · rw [he, hp2, hp1]
        show (st.patches ++ news1) ++ news2 = _
        rw [List.append_assoc]
      · rw [he]
        calc st.lastId = ({ st with depth := drainDepth ps st.depth } : FlowSt).lastId := rfl
          _ ≤ (processFrame ops { st with depth := drainDepth ps st.depth } f).1.lastId := hl1
          _ ≤ _ := hl2
      · intro p hpm
        rw [he]
        rcases List.mem_append.mp hpm with hm1 | hm2
        · obtain ⟨h1, h2, t, c, hs⟩ := hmem1 p hm1
          exact ⟨h1, by omega, t, c, hs⟩
        · obtain ⟨h1, h2, t, c, hs⟩ := hmem2 p hm2
          exact ⟨le_trans hl1 h1, h2, t, c, hs⟩
      · rw [List.map_append, List.pairwise_append]
        refine ⟨hpw1, hpw2, ?_⟩
        intro a ha b hb
        obtain ⟨p, hpm, hpa⟩ := List.mem_map.mp ha
        obtain ⟨q, hqm, hqb⟩ := List.mem_map.mp hb
        obtain ⟨_, h2, _, _, _⟩ := hmem1 p hpm
        obtain ⟨h1, _, _, _, _⟩ := hmem2 q hqm
        omega

/-- C6: the id and patch-store invariant is preserved by every frame of
a session — starting from a state whose patch-store keys are strictly
increasing and below `last_keypoint_id`, after any sequence of frame
bundles the invariant still holds (so ids are strictly increasing over
the session and never reused), the patch store has only been appended to
(every pre-existing id still maps to its original stack: write-once),
every appended keypoint received ids at least the old
`last_keypoint_id` with exactly one patch stack of the `mkStack` shape,
and that stack holds one reference patch per pyramid level `l`, sampled
at `pos / 2^l`. -/
theorem session_id_patch_invariant (ops : PipeOps) (st : FlowSt) (bs : List Bundle)
    (h : PatchInv st) :
    PatchInv (runLoop ops st bs).1 ∧
    (∃ news, (runLoop ops st bs).1.patches = st.patches ++ news ∧
      ∀ p ∈ news, st.lastId ≤ p.1 ∧ ∃ t c, p.2 = mkStack t ops.levels c) ∧
    (∀ id s, List.lookup id st.patches = some s →
      List.lookup id (runLoop ops st bs).1.patches = some s) ∧
    (∀ t c l, l < ops.levels + 1 →
      (mkStack t ops.levels c).getD l ⟨t, 0, c⟩ = ⟨t, l, vdiv c ((2 : ℚ) ^ l)⟩) := by
  obtain ⟨news, hp, hl, hmem, hpw⟩ := runLoop_patch_effect ops bs st
  refine ⟨⟨?_, ?_⟩, ⟨news, hp, fun p hpm => ⟨(hmem p hpm).1, (hmem p hpm).2.2⟩⟩, ?_, ?_⟩
  · rw [hp, List.map_append, List.pairwise_append]
    refine ⟨h.1, hpw, ?_⟩
    intro a ha b hb
    obtain ⟨p, hpm, hpa⟩ := List.mem_map.mp ha
    obtain ⟨q, hqm, hqb⟩ := List.mem_map.mp hb
    have h1 := h.2 p hpm
    have h2 := (hmem q hqm).1
    omega
  · intro p hpm
    rw [hp] at hpm
    rcases List.mem_append.mp hpm with hm1 | hm2
    · have := h.2 p hm1
      omega
    · exact (hmem p hm2).2.1
  · intro id s hs
    rw [hp, List.lookup_append, hs]
    exact Option.or_some
  · intro t c l hl2
    simp [mkStack, List.getD_eq_getElem?_getD, List.getElem?_range hl2]

/-- Witness for C6 at a concrete input: the invariant holds after
running the three-camera pipeline on one complete frame from the fresh
state. -/
theorem session_id_patch_invariant_witness :
    PatchInv (runLoop ops3C st0C [⟨[], some f3C⟩]).1 :=
  (session_id_patch_invariant ops3C st0C [⟨[], some f3C⟩]
    (by constructor <;> simp [PatchInv, st0C])).1

end Basalt
